import Mathlib

/-
Verification of the git-backed document storage layer of doc-platform.

The TypeScript sources are embedded shallowly: JS strings are modelled as
lists of characters, JS objects used as ordered dictionaries are modelled
as ordered association trees, and each handler is a pure function whose
filesystem or subprocess effects are passed in as oracles.
-/

/-- A JavaScript string, modelled as its list of characters. -/
abbrev JStr := List Char

/-- Models the JS expression s.split(c) for a one-character separator:
splits at every occurrence, keeping empty chunks. -/
def jsplit (c : Char) : JStr → List JStr
  | [] => [[]]
  | x :: xs =>
    if x = c then [] :: jsplit c xs
    else
      match jsplit c xs with
      | [] => [[x]]
      | h :: t => (x :: h) :: t

/-- Models the JS idiom path.split(slash).filter(Boolean): the nonempty
segments of a slash-separated path. -/
def segsOf (s : JStr) : List JStr :=
  (jsplit '/' s).filter (fun seg => !seg.isEmpty)

/-- Models the JS expression s.startsWith(p). -/
def jsStartsWith (s p : JStr) : Bool :=
  p.isPrefixOf s

/-- Models the JS expression s.includes(sub). -/
def jsIncludes (s sub : JStr) : Bool :=
  match s with
  | [] => sub.isPrefixOf []
  | x :: xs => sub.isPrefixOf (x :: xs) || jsIncludes xs sub

/-- Models the JS expression s.toLowerCase() on ASCII text. -/
def jsToLower (s : JStr) : JStr :=
  s.map Char.toLower

/-- The character class stripped by JS String.prototype.trim: the ECMA-262
WhiteSpace and LineTerminator productions, i.e. tab, LF, VT, FF, CR, space,
NBSP, the Unicode space separators, the line and paragraph separators and
the byte-order mark. -/
def isJsWhitespace (c : Char) : Bool :=
  c.toNat = 0x9 || c.toNat = 0xA || c.toNat = 0xB || c.toNat = 0xC ||
  c.toNat = 0xD || c.toNat = 0x20 || c.toNat = 0xA0 || c.toNat = 0x1680 ||
  (0x2000 ≤ c.toNat && c.toNat ≤ 0x200A) || c.toNat = 0x2028 ||
  c.toNat = 0x2029 || c.toNat = 0x202F || c.toNat = 0x205F ||
  c.toNat = 0x3000 || c.toNat = 0xFEFF

/-- Models the JS expression s.trim(). -/
def jsTrim (s : JStr) : JStr :=
  ((s.dropWhile isJsWhitespace).reverse.dropWhile isJsWhitespace).reverse

/-- Models the JS expression s.length: the number of UTF-16 code units,
counting every code point beyond the basic multilingual plane twice. -/
def utf16Length (s : JStr) : Nat :=
  s.foldl (fun acc c => acc + (if 0x10000 ≤ c.toNat then 2 else 1)) 0

/-- Models the JS expression s.replace(trailing-slashes-regex, empty):
removes every trailing slash. -/
def stripTrailingSlashes (s : JStr) : JStr :=
  (s.reverse.dropWhile (fun c => c = '/')).reverse

/-- Models the normalization step of isPathWithinRoots:
strip trailing slashes, with the empty result defaulting to the root slash. -/
def normalizePathJS (s : JStr) : JStr :=
  let t := stripTrailingSlashes s
  if t.isEmpty then ['/'] else t

/-- Translated from isPathWithinRoots in the storage handlers (the copy with
the explicit root-slash case): true iff the normalized target equals a
normalized root, is nested under one, or some root normalizes to the root
slash which contains everything. -/
def isPathWithinRoots (targetPath : JStr) (rootPaths : List JStr) : Bool :=
  let normalizedTarget := normalizePathJS targetPath
  rootPaths.any fun root =>
    let normalizedRoot := normalizePathJS root
    decide (normalizedRoot = ['/']) || decide (normalizedTarget = normalizedRoot) ||
      jsStartsWith normalizedTarget (normalizedRoot ++ ['/'])

/-- Translated from the second copy of isPathWithinRoots in the repository,
which lacks the explicit root-slash case. -/
def isPathWithinRootsAlt (targetPath : JStr) (rootPaths : List JStr) : Bool :=
  let normalizedTarget := normalizePathJS targetPath
  rootPaths.any fun root =>
    let normalizedRoot := normalizePathJS root
    decide (normalizedTarget = normalizedRoot) ||
      jsStartsWith normalizedTarget (normalizedRoot ++ ['/'])

/-- The nested expanded-paths structure: a JS object from path segment to
sub-tree, modelled as an ordered association tree. The constructor cons
holds the first entry (name and subtree) and the remaining entries. -/
inductive ExpandedTree where
  | nil : ExpandedTree
  | cons : JStr → ExpandedTree → ExpandedTree → ExpandedTree
deriving DecidableEq

/-- Translated from expandedTreeToPaths: flattens the nested tree to the
list of absolute paths, parent before its subtree, in entry order. -/
def expandedTreeToPaths : ExpandedTree → JStr → List JStr
  | .nil, _ => []
  | .cons name subtree rest, basePath =>
    let path := if basePath.isEmpty then '/' :: name else basePath ++ '/' :: name
    (path :: expandedTreeToPaths subtree path) ++ expandedTreeToPaths rest basePath

/-- Looks up the subtree of a top-level entry by name: the own-property
part of the JS bracket lookup on the object a tree node models. -/
def lookupKey : ExpandedTree → JStr → Option ExpandedTree
  | .nil, _ => none
  | .cons n s r, p => if n = p then some s else lookupKey r p

/-- Replaces the subtree of an existing top-level entry, keeping its place. -/
def replaceKey : ExpandedTree → JStr → ExpandedTree → ExpandedTree
  | .nil, _, _ => .nil
  | .cons n s r, p, v => if n = p then .cons n v r else .cons n s (replaceKey r p v)

/-- Concatenation of the top-level entry lists of two trees. -/
def appendTree : ExpandedTree → ExpandedTree → ExpandedTree
  | .nil, t => t
  | .cons n s r, t => .cons n s (appendTree r t)

/-- The own property names of Object.prototype: for these names the JS
bracket lookup on a plain object without such an own key finds an
inherited function or object, which is truthy. -/
def objectPrototypeProps : List JStr :=
  ["constructor".data, "hasOwnProperty".data, "isPrototypeOf".data,
    "propertyIsEnumerable".data, "toLocaleString".data, "toString".data,
    "valueOf".data, "__defineGetter__".data, "__defineSetter__".data,
    "__lookupGetter__".data, "__lookupSetter__".data, "__proto__".data]

/-- The per-path insertion loop of pathsToExpandedTree, with the JS
falsiness guard on the bracket lookup modelled faithfully: an own key is
a subtree object (truthy), so the loop descends into it; an absent key
whose name is an Object.prototype property is also truthy, so the loop
descends into the inherited function instead of creating an entry, and
everything attached from there on lands outside the returned tree (the
model drops the remaining segments); only an absent, non-inherited name
is falsy and appends a fresh entry at the end of the entry list. -/
def insertSegs : ExpandedTree → List JStr → ExpandedTree
  | t, [] => t
  | t, p :: rest =>
    match lookupKey t p with
    | some s => replaceKey t p (insertSegs s rest)
    | none =>
      if objectPrototypeProps.contains p then t
      else appendTree t (.cons p (insertSegs .nil rest) .nil)

/-- Translated from pathsToExpandedTree: folds every path, split into its
nonempty segments, into the tree. -/
def pathsToExpandedTree (paths : List JStr) : ExpandedTree :=
  paths.foldl (fun tree path => insertSegs tree (segsOf path)) .nil

/-- Translated from the depth computation inside sortPathsByDepth:
the root slash has depth zero, any other path the number of its
nonempty segments. -/
def pathDepth (p : JStr) : Nat :=
  if p = ['/'] then 0 else (segsOf p).length

/-- Translated from sortPathsByDepth: stable sort by ascending depth. -/
def sortPathsByDepth (paths : List JStr) : List JStr :=
  paths.mergeSort (fun a b => decide (pathDepth a ≤ pathDepth b))

/-- Translated from getDisplayName: the root slash displays as Root, any
other path as the final chunk of its slash-split, falling back to the
whole path when that chunk is empty. -/
def getDisplayName (path : JStr) : JStr :=
  if path = ['/'] then "Root".data
  else
    let last := (jsplit '/' path).getLastD []
    if last.isEmpty then path else last

/-- A directory entry, from the storage types module. -/
inductive FileType where
  | file : FileType
  | directory : FileType
deriving DecidableEq

/-- A file or directory entry as returned by the listing handlers. -/
structure FileEntry where
  name : JStr
  path : JStr
  type : FileType
deriving DecidableEq

/-- Intermediate state of the expansion loop of handleListFiles. -/
structure ListFilesState where
  files : List FileEntry
  valid : List JStr
  listed : List JStr
deriving DecidableEq

/-- Outcome of handleListFiles: the response plus, for auditing the claim
that rejection precedes directory access, the list of directories the
lister was invoked on. -/
structure ListFilesOut where
  result : Except JStr (List FileEntry × ExpandedTree × List JStr)
  listed : List JStr

/-- The error message of the expanded-paths cap in handleListFiles. -/
def tooManyExpandedMsg : JStr :=
  "Too many expanded paths (max 200)".data

/-- One iteration of the expansion loop of handleListFiles: emit a root
entry when the path is a configured root, skip paths outside the roots,
otherwise list children (a lister result of none models a throwing
listDirectory, which the handler swallows), splicing them directly after
the parent entry when it exists. -/
def listFilesStep (rootPaths : List JStr) (lister : JStr → Option (List FileEntry))
    (st : ListFilesState) (path : JStr) : ListFilesState :=
  let files1 :=
    if rootPaths.contains path then
      st.files ++ [⟨getDisplayName path, path, .directory⟩]
    else st.files
  if !isPathWithinRoots path rootPaths then ⟨files1, st.valid, st.listed⟩
  else
    match lister path with
    | none => ⟨files1, st.valid, st.listed ++ [path]⟩
    | some children =>
      let files2 :=
        match files1.findIdx? (fun f => decide (f.path = path)) with
        | some parentIndex =>
          files1.take (parentIndex + 1) ++ children ++ files1.drop (parentIndex + 1)
        | none => files1 ++ children
      ⟨files2, st.valid ++ [path], st.listed ++ [path]⟩

/-- Translated from handleListFiles (the tree-listing POST handler): flatten
the requested expanded tree, reject when more than 200 paths are requested,
otherwise union with the configured roots, sort by depth, run the expansion
loop and echo the validly expanded set back in nested form. -/
def handleListFiles (rootPaths : List JStr) (expanded : ExpandedTree)
    (lister : JStr → Option (List FileEntry)) : ListFilesOut :=
  let requestedExpandedPaths := expandedTreeToPaths expanded []
  if requestedExpandedPaths.length > 200 then
    ⟨.error tooManyExpandedMsg, []⟩
  else
    let pathsToExpand := (rootPaths ++ requestedExpandedPaths).eraseDups
    let sortedPaths := sortPathsByDepth pathsToExpand
    let final := sortedPaths.foldl (listFilesStep rootPaths lister) ⟨[], [], []⟩
    ⟨.ok (final.files, pathsToExpandedTree final.valid, rootPaths), final.listed⟩

/-- Boolean test that an Except value is a success. -/
def exceptIsOkB : Except ε α → Bool
  | .ok _ => true
  | .error _ => false

/-- A classified git failure: user-facing message and stable code. -/
structure GitErrorInfo where
  error : JStr
  code : JStr
deriving DecidableEq

/-- The fixed authentication-failure response of parseGitError. -/
def authFailedInfo : GitErrorInfo :=
  ⟨"Authentication failed. Check your git credentials.".data, "AUTH_FAILED".data⟩

/-- The fixed network-failure response of parseGitError. -/
def networkErrorInfo : GitErrorInfo :=
  ⟨"Network error. Check your internet connection.".data, "NETWORK_ERROR".data⟩

/-- The fixed rejected-push response of parseGitError. -/
def pushRejectedInfo : GitErrorInfo :=
  ⟨"Push rejected. Pull changes first and resolve any conflicts.".data, "PUSH_REJECTED".data⟩

/-- The fixed merge-conflict response of parseGitError. -/
def mergeConflictInfo : GitErrorInfo :=
  ⟨"Merge conflict detected. Resolve conflicts before continuing.".data, "MERGE_CONFLICT".data⟩

/-- The fixed nothing-to-commit response of parseGitError. -/
def nothingToCommitInfo : GitErrorInfo :=
  ⟨"No changes to commit.".data, "NOTHING_TO_COMMIT".data⟩

/-- The fixed timeout response of parseGitError. -/
def timeoutInfo : GitErrorInfo :=
  ⟨"Git operation timed out. Try again.".data, "TIMEOUT".data⟩

/-- The fixed generic response of parseGitError. -/
def genericGitErrorInfo : GitErrorInfo :=
  ⟨"Git operation failed. Check the logs for details.".data, "GIT_ERROR".data⟩

/-- Translated from parseGitError: ordered case-insensitive substring
classification of a raw git error message into a fixed response. -/
def parseGitError (message : JStr) : GitErrorInfo :=
  let lowerMessage := jsToLower message
  if jsIncludes lowerMessage "authentication".data ||
      jsIncludes lowerMessage "permission denied".data ||
      jsIncludes lowerMessage "could not read".data ||
      jsIncludes lowerMessage "invalid credentials".data then
    authFailedInfo
  else if jsIncludes lowerMessage "could not resolve host".data ||
      jsIncludes lowerMessage "network".data ||
      jsIncludes lowerMessage "connection refused".data ||
      jsIncludes lowerMessage "unable to access".data then
    networkErrorInfo
  else if jsIncludes lowerMessage "rejected".data ||
      jsIncludes lowerMessage "non-fast-forward".data ||
      jsIncludes lowerMessage "fetch first".data then
    pushRejectedInfo
  else if jsIncludes lowerMessage "conflict".data ||
      jsIncludes lowerMessage "merge".data then
    mergeConflictInfo
  else if jsIncludes lowerMessage "nothing to commit".data ||
      jsIncludes lowerMessage "no changes".data then
    nothingToCommitInfo
  else if jsIncludes lowerMessage "timeout".data ||
      jsIncludes lowerMessage "timed out".data then
    timeoutInfo
  else
    genericGitErrorInfo

/-- Models the JS expression relativePath.replace(leading-slash-regex, empty):
removes at most one leading slash. -/
def stripOneLeadingSlash (s : JStr) : JStr :=
  match s with
  | '/' :: rest => rest
  | other => other

/-- Models POSIX path-segment normalization as performed by the node path
module: empty and dot segments vanish, a dot-dot segment removes the
previous segment (and is dropped at the root). -/
def normSegsAbs (segs : List JStr) : List JStr :=
  segs.foldl
    (fun acc seg =>
      if seg.isEmpty || seg = ['.'] then acc
      else if seg = ['.', '.'] then acc.dropLast
      else acc ++ [seg])
    []

/-- Renders a list of segments as an absolute path without trailing slash. -/
def renderAbs (segs : List JStr) : JStr :=
  '/' :: List.intercalate ['/'] segs

/-- Models node path.resolve(a, b) for an absolute base a: an absolute b
wins outright, otherwise the two are joined, and the join is normalized. -/
def resolvePath (a b : JStr) : JStr :=
  if jsStartsWith b ['/'] then renderAbs (normSegsAbs (jsplit '/' b))
  else renderAbs (normSegsAbs (jsplit '/' (a ++ '/' :: b)))

/-- Models node path.normalize for an absolute input: segment normalization,
preserving a trailing slash except on the bare root. -/
def normalizePathNode (s : JStr) : JStr :=
  let core := renderAbs (normSegsAbs (jsplit '/' s))
  if s.getLast? = some '/' ∧ core ≠ ['/'] then core ++ ['/'] else core

/-- The message of the traversal error thrown by validatePath. -/
def traversalErrorMsg : JStr :=
  "Path traversal detected".data

/-- Translated from validatePath in git-utils: resolve the relative path
against the repository root and accept iff the resolved absolute path has
the normalized repository root as a plain string prefix. -/
def validatePath (repoRoot relativePath : JStr) : Except JStr JStr :=
  let absolutePath := resolvePath repoRoot (stripOneLeadingSlash relativePath)
  let normalizedRepo := normalizePathNode repoRoot
  if jsStartsWith absolutePath normalizedRepo then .ok absolutePath
  else .error traversalErrorMsg

/-- The PATH_OUTSIDE_ROOTS error code of the file handlers. -/
def pathOutsideRootsCode : JStr := "PATH_OUTSIDE_ROOTS".data

/-- Translated from the post-authentication logic of handleReadFile: the
containment check runs first, then existence, then the read; the oracle
arguments stand for the storage provider. -/
def handleReadFile (filePath : JStr) (rootPaths : List JStr)
    (fileExists : Bool) (content : JStr) : Except JStr (JStr × JStr) :=
  if !isPathWithinRoots filePath rootPaths then .error pathOutsideRootsCode
  else if !fileExists then .error "FILE_NOT_FOUND".data
  else .ok (filePath, content)

/-- Translated from the post-authentication logic of handleWriteFile: the
containment check runs first, then the content-presence check, then the
write. -/
def handleWriteFile (filePath : JStr) (rootPaths : List JStr)
    (content : Option JStr) : Except JStr JStr :=
  if !isPathWithinRoots filePath rootPaths then .error pathOutsideRootsCode
  else
    match content with
    | none => .error "CONTENT_REQUIRED".data
    | some _ => .ok filePath

/-- Translated from the path-scoped GET listing handler (the second copy of
handleListFiles): containment first, then the directory listing. -/
def handleListFilesAtPath (pathParam : JStr) (rootPaths : List JStr)
    (entries : List FileEntry) : Except JStr (List FileEntry) :=
  if !isPathWithinRootsAlt pathParam rootPaths then .error pathOutsideRootsCode
  else .ok entries

/-- A git side effect requested by handleGitCommit. -/
inductive GitAction where
  | add : List JStr → GitAction
  | commit : JStr → GitAction
deriving DecidableEq

deriving instance DecidableEq for Except

/-- Outcome of handleGitCommit: the response (error code, or sha and echoed
message) and the git subprocess actions performed, in order. -/
structure CommitOut where
  response : Except JStr (JStr × JStr)
  actions : List GitAction
deriving DecidableEq

/-- The MESSAGE_REQUIRED error code of handleGitCommit. -/
def messageRequiredCode : JStr := "MESSAGE_REQUIRED".data

/-- The MESSAGE_TOO_SHORT error code of handleGitCommit. -/
def messageTooShortCode : JStr := "MESSAGE_TOO_SHORT".data

/-- The MESSAGE_TOO_LONG error code of handleGitCommit. -/
def messageTooLongCode : JStr := "MESSAGE_TOO_LONG".data

/-- Translated from handleGitCommit: a missing, non-string or empty message
is MESSAGE_REQUIRED (empty strings are falsy in JS); the trimmed message
must be between 3 and 500 UTF-16 code units, the unit JS string length
counts; only then are files staged and the trimmed message committed and
echoed. The paths argument is some when the request body carried an
array, the sha argument stands for the provider. -/
def handleGitCommit (message : Option JStr) (paths : Option (List JStr))
    (sha : JStr) : CommitOut :=
  match message with
  | none => ⟨.error messageRequiredCode, []⟩
  | some m =>
    if m.isEmpty then ⟨.error messageRequiredCode, []⟩
    else
      let trimmedMessage := jsTrim m
      if utf16Length trimmedMessage < 3 then ⟨.error messageTooShortCode, []⟩
      else if utf16Length trimmedMessage > 500 then ⟨.error messageTooLongCode, []⟩
      else
        let staged :=
          match paths with
          | some ps => if ps.length > 0 then [GitAction.add ps] else []
          | none => []
        ⟨.ok (sha, trimmedMessage), staged ++ [GitAction.commit trimmedMessage]⟩

/-- The folder categories of the document-folder classifier. -/
inductive FolderCategory where
  | preselect : FolderCategory
  | suggest : FolderCategory
  | ignore : FolderCategory
  | normal : FolderCategory
deriving DecidableEq

/-- The three configured pattern lists of the document-folder classifier. -/
structure DocFolderPatterns where
  preselect : List JStr
  suggest : List JStr
  ignore : List JStr

/-- Modelled from the spec: the contents of doc-folder-patterns.json, which
is not among the provided sources; the three pattern lists are taken from
the folder-selection design document (preselect, suggest and ignore
examples). -/
def docFolderPatterns : DocFolderPatterns where
  preselect := ["/docs".data, "/doc".data, "/documentation".data, "/wiki".data,
    "/guides".data, "/content".data]
  suggest := ["/manual".data, "/help".data, "/reference".data, "/specs".data,
    "/api-docs".data]
  ignore := ["/node_modules".data, "/.git".data, "/dist".data, "/build".data,
    "/coverage".data]

/-- Translated from matchesPattern in doc-folder-patterns: the path, given a
leading slash when missing, matches a pattern exactly or as a
pattern-plus-slash prefix. -/
def matchesPattern (folderPath : JStr) (patternList : List JStr) : Bool :=
  let normalized := if jsStartsWith folderPath ['/'] then folderPath else '/' :: folderPath
  patternList.any fun pattern =>
    decide (normalized = pattern) || jsStartsWith normalized (pattern ++ ['/'])

/-- Translated from categorizeFolderPath in doc-folder-patterns: ordered
pattern classification, ignore before preselect before suggest. -/
def categorizeFolderPath (folderPath : JStr) : FolderCategory :=
  if matchesPattern folderPath docFolderPatterns.ignore then .ignore
  else if matchesPattern folderPath docFolderPatterns.preselect then .preselect
  else if matchesPattern folderPath docFolderPatterns.suggest then .suggest
  else .normal

/-- Modelled from the spec: the ordered classification rule of the
FolderClassifier section, over two oracles: whether the repository ignore
rules cover the path, and whether the folder contains at least one document
file. Pattern matching is shared with the implementation. -/
def classifySpec (repoIgnored : JStr → Bool) (containsDoc : JStr → Bool)
    (folderPath : JStr) : FolderCategory :=
  if matchesPattern folderPath docFolderPatterns.ignore || repoIgnored folderPath then
    .ignore
  else if matchesPattern folderPath docFolderPatterns.preselect && containsDoc folderPath then
    .preselect
  else if matchesPattern folderPath docFolderPatterns.suggest && containsDoc folderPath then
    .suggest
  else .normal

/-- Whether a is a proper ancestor directory of p: the nonempty segments of
a form a strict initial run of the nonempty segments of p. -/
def isProperAncestorOf (a p : JStr) : Bool :=
  !decide (segsOf a = segsOf p) && (segsOf a).isPrefixOf (segsOf p)

/-- Whether the tree has a top-level entry with the given name. -/
def hasKey : ExpandedTree → JStr → Bool
  | .nil, _ => false
  | .cons n _ r, k => decide (n = k) || hasKey r k

/-- Well-formedness of an ExpandedTree: every name is nonempty, contains no
slash, does not collide with an Object.prototype property name, and is
unique at its level, recursively. -/
def wfTree : ExpandedTree → Bool
  | .nil => true
  | .cons n s r =>
    !decide (n = []) && !decide ('/' ∈ n) && !objectPrototypeProps.contains n &&
      !hasKey r n && wfTree s && wfTree r

/-- Follows a chain of names down the tree, entry by entry. -/
def followChain : ExpandedTree → List JStr → Option ExpandedTree
  | t, [] => some t
  | .nil, _ :: _ => none
  | .cons n s r, b :: bs => if n = b then followChain s bs else followChain r (b :: bs)

/-- Replaces the subtree at the end of a chain of names. -/
def setChain : ExpandedTree → List JStr → ExpandedTree → ExpandedTree
  | _, [], v => v
  | .nil, _ :: _, _ => .nil
  | .cons n s r, b :: bs, v =>
    if n = b then .cons n (setChain s bs v) r else .cons n s (setChain r (b :: bs) v)

/-- Segment-level image of expandedTreeToPaths: each emitted path as the
base chain extended by the entry name. -/
def flatSegs : List JStr → ExpandedTree → List (List JStr)
  | _, .nil => []
  | bs, .cons n s r => (bs ++ [n]) :: (flatSegs (bs ++ [n]) s ++ flatSegs bs r)

/-- Root-path set of 201 distinct paths, exceeding the expansion cap. -/
def manyRootPaths : List JStr :=
  (List.range 201).map fun i => '/' :: 'r' :: Nat.toDigits 10 i

/-- An expanded tree with 201 top-level entries, exceeding the cap. -/
def manyExpandedTree : ExpandedTree :=
  (List.range 201).foldr
    (fun i t => ExpandedTree.cons ('r' :: Nat.toDigits 10 i) .nil t) .nil

theorem jsplit_ne_nil (c : Char) : ∀ s : JStr, jsplit c s ≠ []
  | [] => by simp [jsplit]
  | x :: xs => by
    simp only [jsplit]
    split
    · simp
    · split
      · simp
      · simp

theorem jsplit_append (c : Char) (xs ys : JStr) :
    jsplit c (xs ++ c :: ys) = jsplit c xs ++ jsplit c ys := by
  induction xs with
  | nil => simp [jsplit]
  | cons x xs ih =>
    by_cases hx : x = c
    · subst hx
      simp [jsplit, ih]
    · rcases hsp : jsplit c xs with _ | ⟨h, t⟩
      · exact absurd hsp (jsplit_ne_nil c xs)
      · simp only [List.cons_append, jsplit, if_neg hx, List.append_eq]
        rw [ih, hsp]
        simp

theorem jsplit_no_sep (c : Char) : ∀ s : JStr, c ∉ s → jsplit c s = [s]
  | [], _ => by simp [jsplit]
  | x :: xs, h => by
    have hx : x ≠ c := fun hh => h (hh ▸ List.mem_cons_self x xs)
    have hxs : c ∉ xs := fun hh => h (List.mem_cons_of_mem x hh)
    simp [jsplit, hx, jsplit_no_sep c xs hxs]

theorem segsOf_nil : segsOf [] = [] := rfl

theorem segsOf_append_slash (xs ys : JStr) :
    segsOf (xs ++ '/' :: ys) = segsOf xs ++ segsOf ys := by
  unfold segsOf
  rw [jsplit_append, List.filter_append]

theorem segsOf_single (s : JStr) (h1 : s ≠ []) (h2 : '/' ∉ s) : segsOf s = [s] := by
  unfold segsOf
  rw [jsplit_no_sep _ _ h2]
  cases s with
  | nil => exact absurd rfl h1
  | cons a as => simp [List.filter]

theorem isPrefixOf_length_le [BEq α] : ∀ (a b : List α), a.isPrefixOf b = true → a.length ≤ b.length
  | [], _, _ => Nat.zero_le _
  | _ :: _, [], h => by simp [List.isPrefixOf] at h
  | _ :: xs, _ :: ys, h => by
    simp only [List.isPrefixOf, Bool.and_eq_true] at h
    simpa using Nat.succ_le_succ (isPrefixOf_length_le xs ys h.2)

theorem isPrefixOf_and_length_eq [BEq α] [LawfulBEq α] :
    ∀ (a b : List α), a.isPrefixOf b = true → a.length = b.length → a = b
  | [], [], _, _ => rfl
  | [], _ :: _, _, hl => by simp at hl
  | _ :: _, [], h, _ => by simp [List.isPrefixOf] at h
  | x :: xs, y :: ys, h, hl => by
    simp only [List.isPrefixOf, Bool.and_eq_true] at h
    have hxy : x = y := eq_of_beq h.1
    have := isPrefixOf_and_length_eq xs ys h.2 (by simpa using hl)
    rw [hxy, this]

theorem pathDepth_eq_segs (p : JStr) : pathDepth p = (segsOf p).length := by
  unfold pathDepth
  split
  · next h => subst h; decide
  · rfl

theorem appendTree_nil : ∀ t : ExpandedTree, appendTree t .nil = t
  | .nil => rfl
  | .cons n s r => by simp [appendTree, appendTree_nil r]

theorem appendTree_assoc : ∀ a b c : ExpandedTree,
    appendTree (appendTree a b) c = appendTree a (appendTree b c)
  | .nil, _, _ => rfl
  | .cons n s r, b, c => by simp [appendTree, appendTree_assoc r b c]

theorem hasKey_appendTree : ∀ (a b : ExpandedTree) (k : JStr),
    hasKey (appendTree a b) k = (hasKey a k || hasKey b k)
  | .nil, _, _ => by simp [appendTree, hasKey]
  | .cons n s r, b, k => by
    simp [appendTree, hasKey, hasKey_appendTree r b k, Bool.or_assoc]

theorem lookupKey_eq_none : ∀ (u : ExpandedTree) (n : JStr),
    hasKey u n = false → lookupKey u n = none
  | .nil, _, _ => rfl
  | .cons m s r, n, h => by
    simp only [hasKey, Bool.or_eq_false_iff, decide_eq_false_iff_not] at h
    simp [lookupKey, h.1, lookupKey_eq_none r n h.2]

theorem insertSegs_singleton_fresh (u : ExpandedTree) (n : JStr)
    (h : hasKey u n = false) (hp : objectPrototypeProps.contains n = false) :
    insertSegs u [n] = appendTree u (.cons n .nil .nil) := by
  have hp' : n ∉ objectPrototypeProps := by simpa using hp
  simp [insertSegs, lookupKey_eq_none u n h, hp']

theorem followChain_nil_chain (T : ExpandedTree) : followChain T [] = some T := by
  cases T <;> rfl

theorem setChain_nil_chain (T v : ExpandedTree) : setChain T [] v = v := by
  cases T <;> rfl

theorem followChain_cons : ∀ (T : ExpandedTree) (b : JStr) (bs : List JStr),
    followChain T (b :: bs) = (lookupKey T b).bind (fun s => followChain s bs)
  | .nil, _, _ => rfl
  | .cons n s r, b, bs => by
    by_cases h : n = b
    · simp [followChain, lookupKey, h]
    · simp [followChain, lookupKey, h, followChain_cons r b bs]

theorem setChain_cons (T : ExpandedTree) (b : JStr) (bs : List JStr)
    (s v : ExpandedTree) (h : lookupKey T b = some s) :
    setChain T (b :: bs) v = replaceKey T b (setChain s bs v) := by
  induction T with
  | nil => simp [lookupKey] at h
  | cons n s' r ihs ihr =>
    by_cases hn : n = b
    · simp only [lookupKey, if_pos hn] at h
      cases h
      simp [setChain, replaceKey, hn]
    · simp only [lookupKey, if_neg hn] at h
      simp [setChain, replaceKey, hn, ihr h]

theorem insertSegs_chain : ∀ (bs : List JStr) (T u : ExpandedTree) (ps : List JStr),
    followChain T bs = some u →
    insertSegs T (bs ++ ps) = setChain T bs (insertSegs u ps)
  | [], T, u, ps, h => by
    rw [followChain_nil_chain, Option.some.injEq] at h
    subst h
    rw [setChain_nil_chain, List.nil_append]
  | b :: bs, T, u, ps, h => by
    rw [followChain_cons] at h
    rcases hlk : lookupKey T b with _ | s
    · rw [hlk] at h
      simp at h
    · rw [hlk] at h
      simp only [Option.some_bind] at h
      have ih := insertSegs_chain bs s u ps h
      calc insertSegs T ((b :: bs) ++ ps)
          = insertSegs T (b :: (bs ++ ps)) := by simp
        _ = replaceKey T b (insertSegs s (bs ++ ps)) := by simp [insertSegs, hlk]
        _ = replaceKey T b (setChain s bs (insertSegs u ps)) := by rw [ih]
        _ = setChain T (b :: bs) (insertSegs u ps) := (setChain_cons T b bs s _ hlk).symm

theorem followChain_setChain : ∀ (T : ExpandedTree) (bs : List JStr) (u v : ExpandedTree),
    followChain T bs = some u → followChain (setChain T bs v) bs = some v
  | T, [], _, v, _ => by rw [setChain_nil_chain, followChain_nil_chain]
  | .nil, _ :: _, _, _, h => by simp [followChain] at h
  | .cons n s r, b :: bs, u, v, h => by
    by_cases hn : n = b
    · simp only [followChain, if_pos hn] at h
      simp [setChain, followChain, hn, followChain_setChain s bs u v h]
    · simp only [followChain, if_neg hn] at h
      simp [setChain, followChain, hn, followChain_setChain r (b :: bs) u v h]

theorem setChain_setChain : ∀ (T : ExpandedTree) (bs : List JStr) (u v w : ExpandedTree),
    followChain T bs = some u → setChain (setChain T bs v) bs w = setChain T bs w
  | T, [], _, v, w, _ => by simp [setChain_nil_chain]
  | .nil, _ :: _, _, _, _, h => by simp [followChain] at h
  | .cons n s r, b :: bs, u, v, w, h => by
    by_cases hn : n = b
    · simp only [followChain, if_pos hn] at h
      simp [setChain, hn, setChain_setChain s bs u v w h]
    · simp only [followChain, if_neg hn] at h
      simp [setChain, hn, setChain_setChain r (b :: bs) u v w h]

theorem setChain_append : ∀ (T : ExpandedTree) (bs : List JStr) (u : ExpandedTree)
    (cs : List JStr) (w : ExpandedTree), followChain T bs = some u →
    setChain T (bs ++ cs) w = setChain T bs (setChain u cs w)
  | T, [], u, cs, w, h => by
    rw [followChain_nil_chain, Option.some.injEq] at h
    subst h
    rw [setChain_nil_chain, List.nil_append]
  | .nil, _ :: _, _, _, _, h => by simp [followChain] at h
  | .cons n s r, b :: bs, u, cs, w, h => by
    by_cases hn : n = b
    · simp only [followChain, if_pos hn] at h
      simp [setChain, hn, setChain_append s bs u cs w h]
    · simp only [followChain, if_neg hn] at h
      have ih := setChain_append r (b :: bs) u cs w h
      simp only [List.cons_append] at ih
      simp [setChain, hn, ih]

theorem setChain_self : ∀ (T : ExpandedTree) (bs : List JStr) (u : ExpandedTree),
    followChain T bs = some u → setChain T bs u = T
  | T, [], u, h => by
    rw [followChain_nil_chain, Option.some.injEq] at h
    subst h
    rw [setChain_nil_chain]
  | .nil, _ :: _, _, h => by simp [followChain] at h
  | .cons n s r, b :: bs, u, h => by
    by_cases hn : n = b
    · simp only [followChain, if_pos hn] at h
      simp [setChain, hn, setChain_self s bs u h]
    · simp only [followChain, if_neg hn] at h
      simp [setChain, hn, setChain_self r (b :: bs) u h]

theorem followChain_appended_single : ∀ (u : ExpandedTree) (n : JStr) (s : ExpandedTree),
    hasKey u n = false → followChain (appendTree u (.cons n s .nil)) [n] = some s
  | .nil, n, s, _ => by simp [appendTree, followChain]
  | .cons m s' r, n, s, h => by
    simp only [hasKey, Bool.or_eq_false_iff, decide_eq_false_iff_not] at h
    simp [appendTree, followChain, h.1, followChain_appended_single r n s h.2]

theorem setChain_appended_single : ∀ (u : ExpandedTree) (n : JStr) (s v : ExpandedTree),
    hasKey u n = false →
    setChain (appendTree u (.cons n s .nil)) [n] v = appendTree u (.cons n v .nil)
  | .nil, n, s, v, _ => by simp [appendTree, setChain]
  | .cons m s' r, n, s, v, h => by
    simp only [hasKey, Bool.or_eq_false_iff, decide_eq_false_iff_not] at h
    simp [appendTree, setChain, h.1, setChain_appended_single r n s v h.2]

theorem followChain_append : ∀ (bs : List JStr) (T : ExpandedTree) (cs : List JStr),
    followChain T (bs ++ cs) = (followChain T bs).bind (fun u => followChain u cs)
  | [], T, cs => by rw [List.nil_append, followChain_nil_chain, Option.some_bind]
  | b :: bs, T, cs => by
    rw [List.cons_append, followChain_cons, followChain_cons]
    cases lookupKey T b with
    | none => rfl
    | some s => simp [followChain_append bs s cs]

theorem foldl_insertSegs_flatSegs (t : ExpandedTree) :
    wfTree t = true →
    ∀ (T : ExpandedTree) (bs : List JStr) (u : ExpandedTree),
      followChain T bs = some u →
      (∀ k, hasKey t k = true → hasKey u k = false) →
      List.foldl insertSegs T (flatSegs bs t) = setChain T bs (appendTree u t) := by
  induction t with
  | nil =>
    intro _ T bs u hf _
    simp [flatSegs, appendTree_nil, setChain_self T bs u hf]
  | cons n s r ihs ihr =>
    intro hwf T bs u hf hdisj
    simp only [wfTree, Bool.and_eq_true, Bool.not_eq_true', decide_eq_false_iff_not] at hwf
    obtain ⟨⟨⟨⟨⟨hn, hsl⟩, hproto⟩, hkeyr⟩, hwfs⟩, hwfr⟩ := hwf
    have hun : hasKey u n = false := hdisj n (by simp [hasKey])
    have h1 : insertSegs T (bs ++ [n]) =
        setChain T bs (appendTree u (.cons n .nil .nil)) := by
      rw [insertSegs_chain bs T u [n] hf, insertSegs_singleton_fresh u n hun hproto]
    have hfT1bs : followChain (setChain T bs (appendTree u (.cons n .nil .nil))) bs =
        some (appendTree u (.cons n .nil .nil)) :=
      followChain_setChain T bs u _ hf
    have hfT1 : followChain (setChain T bs (appendTree u (.cons n .nil .nil)))
        (bs ++ [n]) = some .nil := by
      rw [followChain_append bs _ [n], hfT1bs, Option.some_bind]
      exact followChain_appended_single u n .nil hun
    have h2 := ihs hwfs (setChain T bs (appendTree u (.cons n .nil .nil)))
      (bs ++ [n]) .nil hfT1 (fun k _ => rfl)
    have h3 : setChain (setChain T bs (appendTree u (.cons n .nil .nil))) (bs ++ [n])
        (appendTree .nil s) = setChain T bs (appendTree u (.cons n s .nil)) := by
      rw [setChain_append _ bs (appendTree u (.cons n .nil .nil)) [n] _ hfT1bs,
        show appendTree .nil s = s from rfl,
        setChain_appended_single u n .nil s hun,
        setChain_setChain T bs u _ _ hf]
    have hfT2 : followChain (setChain T bs (appendTree u (.cons n s .nil))) bs =
        some (appendTree u (.cons n s .nil)) :=
      followChain_setChain T bs u _ hf
    have hdisj2 : ∀ k, hasKey r k = true →
        hasKey (appendTree u (.cons n s .nil)) k = false := by
      intro k hk
      have hu : hasKey u k = false := hdisj k (by simp [hasKey, hk])
      have hnk : decide (n = k) = false := by
        rw [decide_eq_false_iff_not]
        intro he
        rw [← he] at hk
        rw [hk] at hkeyr
        simp at hkeyr
      rw [hasKey_appendTree]
      simp [hasKey, hu, hnk]
    have h4 := ihr hwfr (setChain T bs (appendTree u (.cons n s .nil))) bs
      (appendTree u (.cons n s .nil)) hfT2 hdisj2
    calc List.foldl insertSegs T (flatSegs bs (.cons n s r))
        = List.foldl insertSegs
            (List.foldl insertSegs (insertSegs T (bs ++ [n]))
              (flatSegs (bs ++ [n]) s))
            (flatSegs bs r) := by
          simp [flatSegs, List.foldl_cons, List.foldl_append]
      _ = List.foldl insertSegs
            (setChain T bs (appendTree u (.cons n s .nil))) (flatSegs bs r) := by
          rw [h1, h2, h3]
      _ = setChain (setChain T bs (appendTree u (.cons n s .nil))) bs
            (appendTree (appendTree u (.cons n s .nil)) r) := h4
      _ = setChain T bs (appendTree (appendTree u (.cons n s .nil)) r) :=
          setChain_setChain T bs u _ _ hf
      _ = setChain T bs (appendTree u (.cons n s r)) := by
          rw [appendTree_assoc]
          rfl

theorem expandedTreeToPaths_map_segsOf (t : ExpandedTree) :
    wfTree t = true → ∀ base : JStr,
    (expandedTreeToPaths t base).map segsOf = flatSegs (segsOf base) t := by
  induction t with
  | nil => intro _ base; rfl
  | cons n s r ihs ihr =>
    intro hwf base
    simp only [wfTree, Bool.and_eq_true, Bool.not_eq_true', decide_eq_false_iff_not] at hwf
    obtain ⟨⟨⟨⟨⟨hn, hsl⟩, hproto⟩, hkeyr⟩, hwfs⟩, hwfr⟩ := hwf
    have hpath : (if base.isEmpty then '/' :: n else base ++ '/' :: n) = base ++ '/' :: n := by
      cases base <;> simp
    have hsegs : segsOf (base ++ '/' :: n) = segsOf base ++ [n] := by
      rw [segsOf_append_slash, segsOf_single n hn hsl]
    simp only [expandedTreeToPaths, hpath, flatSegs, List.map_append, List.map_cons]
    rw [ihs hwfs, ihr hwfr, hsegs, List.cons_append]

theorem pathsToExpandedTree_flatten (t : ExpandedTree) (h : wfTree t = true) :
    pathsToExpandedTree (expandedTreeToPaths t []) = t := by
  unfold pathsToExpandedTree
  rw [show (fun (tree : ExpandedTree) (path : JStr) => insertSegs tree (segsOf path)) =
      (fun tree path => insertSegs tree (segsOf path)) from rfl]
  rw [← List.foldl_map segsOf insertSegs (expandedTreeToPaths t []) ExpandedTree.nil]
  rw [expandedTreeToPaths_map_segsOf t h [], segsOf_nil]
  rw [foldl_insertSegs_flatSegs t h ExpandedTree.nil [] ExpandedTree.nil
    (followChain_nil_chain _) (fun _ _ => rfl)]
  rw [setChain_nil_chain]
  rfl


set_option maxRecDepth 200000

/-- C1: validatePath is claimed to fail closed for every escaping input,
including dot-dot sequences resolving to a sibling directory that shares
the repository root as a string prefix. The code does not: with repository
root /repo, the relative path ../repo-extra resolves to /repo-extra, which
passes the plain string-prefix check and is returned although it lies
outside the repository, while ../../etc/passwd is correctly rejected with
the traversal error. -/
theorem validatePath_sibling_escape :
    validatePath "/repo".data "../repo-extra".data = .ok "/repo-extra".data ∧
    "/repo-extra".data ≠ "/repo".data ∧
    jsStartsWith "/repo-extra".data ("/repo".data ++ ['/']) = false ∧
    validatePath "/repo".data "../../etc/passwd".data = .error traversalErrorMsg := by
  decide

/-- C2 counterexample: the claim quantifies its negative containment part
over all roots, but for the root slash itself the implementation (and the
spec elsewhere) makes every target contained: /foo is neither equal to /
nor an extension of / followed by a slash, yet isPathWithinRoots returns
true. -/
theorem isPathWithinRoots_root_slash_counterexample :
    normalizePathJS "/foo".data ≠ normalizePathJS "/".data ∧
    jsStartsWith (normalizePathJS "/foo".data) (normalizePathJS "/".data ++ ['/']) = false ∧
    isPathWithinRoots "/foo".data ["/".data] = true := by
  decide

/-- C2 amended: for every root that does not normalize to the root slash,
a target that is neither equal to the normalized root nor nested under it
is rejected; and any root list containing the literal root slash accepts
every target. -/
theorem isPathWithinRoots_containment :
    (∀ target root : JStr, normalizePathJS root ≠ ['/'] →
      normalizePathJS target ≠ normalizePathJS root →
      jsStartsWith (normalizePathJS target) (normalizePathJS root ++ ['/']) = false →
      isPathWithinRoots target [root] = false) ∧
    (∀ (target : JStr) (roots : List JStr), ['/'] ∈ roots →
      isPathWithinRoots target roots = true) := by
  constructor
  · intro target root h1 h2 h3
    simp only [isPathWithinRoots, List.any_cons, List.any_nil, Bool.or_false]
    simp [h1, h2, h3]
  · intro target roots hmem
    simp only [isPathWithinRoots, List.any_eq_true]
    refine ⟨['/'], hmem, ?_⟩
    simp [show normalizePathJS ['/'] = ['/'] from by decide]

/-- C2 witness: the containment theorem applied to the adversarial
sibling pair of the claim and to a root list holding the root slash. -/
theorem isPathWithinRoots_containment_witness :
    isPathWithinRoots "/docs-extra".data ["/docs".data] = false ∧
    isPathWithinRoots "/anything".data ["/".data] = true :=
  ⟨isPathWithinRoots_containment.1 "/docs-extra".data "/docs".data
      (by decide) (by decide) (by decide),
    isPathWithinRoots_containment.2 "/anything".data ["/".data] (by decide)⟩

/-- C9: with an empty configured root list the boundary check fails
closed: isPathWithinRoots is false for every target, so the read, write
and path-scoped listing handlers all reject with PATH_OUTSIDE_ROOTS no
matter what the storage oracles would return. -/
theorem emptyRoots_failClosed :
    (∀ target : JStr, isPathWithinRoots target [] = false) ∧
    (∀ (filePath : JStr) (fileExists : Bool) (content : JStr),
      handleReadFile filePath [] fileExists content = .error pathOutsideRootsCode) ∧
    (∀ (filePath : JStr) (content : Option JStr),
      handleWriteFile filePath [] content = .error pathOutsideRootsCode) ∧
    (∀ (pathParam : JStr) (entries : List FileEntry),
      handleListFilesAtPath pathParam [] entries = .error pathOutsideRootsCode) :=
  ⟨fun _ => rfl, fun _ _ _ => rfl, fun _ _ => rfl, fun _ _ => rfl⟩

/-- C7: parseGitError is a total map onto seven fixed responses, so the
user-facing message and code never carry any content of the raw error
text beyond which branch was taken. -/
theorem parseGitError_fixed_responses (message : JStr) :
    parseGitError message = authFailedInfo ∨
    parseGitError message = networkErrorInfo ∨
    parseGitError message = pushRejectedInfo ∨
    parseGitError message = mergeConflictInfo ∨
    parseGitError message = nothingToCommitInfo ∨
    parseGitError message = timeoutInfo ∨
    parseGitError message = genericGitErrorInfo := by
  unfold parseGitError
  dsimp only
  split_ifs <;> simp

/-- C5 counterexample: the claim equates categorizeFolderPath with the
ordered reference rule that also consults repository ignore rules and a
contains-a-document condition; the implementation consults neither, so a
preselect-pattern folder with no document file and a repository-ignored
folder are both classified differently by the two. -/
theorem categorizeFolderPath_oracle_counterexample :
    categorizeFolderPath "/docs".data = FolderCategory.preselect ∧
    classifySpec (fun _ => false) (fun _ => false) "/docs".data = FolderCategory.normal ∧
    categorizeFolderPath "/src".data = FolderCategory.normal ∧
    classifySpec (fun _ => true) (fun _ => true) "/src".data = FolderCategory.ignore := by
  decide

/-- C5 amended: categorizeFolderPath implements exactly the pattern-only
special case of the reference rule, the one with no repository ignore
rules and every folder containing a document; the repository-ignore and
document-content conditions are applied by its callers, not by the
classifier itself. -/
theorem categorizeFolderPath_eq_patternOnlySpec (folderPath : JStr) :
    categorizeFolderPath folderPath =
      classifySpec (fun _ => false) (fun _ => true) folderPath := by
  simp [categorizeFolderPath, classifySpec]

/-- A prototype-named segment is found truthy through the inherited
property chain and never inserted: nesting the single path /toString
yields the empty tree, as in the source. -/
theorem pathsToExpandedTree_protoName :
    pathsToExpandedTree ["/toString".data] = ExpandedTree.nil := by
  decide

/-- C3 counterexample: for a well-formed absolute path set that is not
closed under ancestors, flattening the nested tree built from it is not
the original set: from the single path /a/b the tree conversion also
produces the ancestor /a, which was not in the input. -/
theorem expandedTree_roundtrip_counterexample :
    expandedTreeToPaths (pathsToExpandedTree ["/a/b".data]) [] ≠ ["/a/b".data] ∧
    "/a".data ∉ ["/a/b".data] ∧
    "/a".data ∈ expandedTreeToPaths (pathsToExpandedTree ["/a/b".data]) [] := by
  decide

/-- C3 amended: the tree-to-paths-to-tree direction holds for every
well-formed ExpandedTree (nonempty slash-free names, unique per level and
not colliding with an Object.prototype property name, which the insertion
loop's truthiness test would find inherited and skip), and therefore
paths-to-tree-to-paths is the identity exactly on path lists that arise by
flattening such a tree: duplicate-free, ancestor-closed lists with each
parent before its children. -/
theorem expandedTree_roundtrip (t : ExpandedTree) (h : wfTree t = true) :
    pathsToExpandedTree (expandedTreeToPaths t []) = t ∧
    expandedTreeToPaths (pathsToExpandedTree (expandedTreeToPaths t [])) [] =
      expandedTreeToPaths t [] := by
  have hm := pathsToExpandedTree_flatten t h
  exact ⟨hm, by rw [hm]⟩

/-- C3 witness: the round-trip theorem applied to the two-level tree
holding docs and docs/nested. -/
theorem expandedTree_roundtrip_witness :
    wfTree (ExpandedTree.cons "docs".data
      (ExpandedTree.cons "nested".data .nil .nil) .nil) = true ∧
    pathsToExpandedTree (expandedTreeToPaths (ExpandedTree.cons "docs".data
      (ExpandedTree.cons "nested".data .nil .nil) .nil) []) =
      ExpandedTree.cons "docs".data (ExpandedTree.cons "nested".data .nil .nil) .nil :=
  ⟨by decide, (expandedTree_roundtrip (ExpandedTree.cons "docs".data
      (ExpandedTree.cons "nested".data .nil .nil) .nil) (by decide)).1⟩

/-- C4 counterexample: the cap is checked against the requested expanded
paths alone, not against their union with the configured roots: with 201
configured roots and an empty request the union has 201 elements, beyond
the cap of 200, yet the handler answers successfully instead of rejecting
with the cap error. -/
theorem handleListFiles_union_counterexample :
    (manyRootPaths ++ expandedTreeToPaths ExpandedTree.nil []).eraseDups.length = 201 ∧
    exceptIsOkB (handleListFiles manyRootPaths ExpandedTree.nil (fun _ => none)).result =
      true := by
  constructor
  · decide
  · decide

/-- C4 amended: whenever the caller requests more than 200 expanded paths,
the handler rejects with the fixed too-many-expanded-paths message (an
error string, with no machine-readable code field) before the directory
lister is invoked on anything. -/
theorem handleListFiles_cap (rootPaths : List JStr) (expanded : ExpandedTree)
    (lister : JStr → Option (List FileEntry))
    (h : (expandedTreeToPaths expanded []).length > 200) :
    handleListFiles rootPaths expanded lister = ⟨.error tooManyExpandedMsg, []⟩ := by
  simp [handleListFiles, h]

/-- C4 witness: the cap theorem applied to a request of 201 expanded
paths against a project with no roots. -/
theorem handleListFiles_cap_witness :
    (expandedTreeToPaths manyExpandedTree []).length > 200 ∧
    handleListFiles [] manyExpandedTree (fun _ => none) =
      ⟨.error tooManyExpandedMsg, []⟩ :=
  ⟨by decide, handleListFiles_cap [] manyExpandedTree (fun _ => none) (by decide)⟩

/-- C6 counterexample: containing the substring non-fast-forward does not
alone force PUSH_REJECTED, because the authentication and network branches
are checked first: a message holding both an authentication keyword and
non-fast-forward classifies as AUTH_FAILED. -/
theorem parseGitError_nonFastForward_counterexample :
    jsIncludes (jsToLower "Authentication failed: non-fast-forward".data)
      "non-fast-forward".data = true ∧
    parseGitError "Authentication failed: non-fast-forward".data = authFailedInfo ∧
    authFailedInfo ≠ pushRejectedInfo := by
  decide

/-- C6 amended: every raw error whose lowercased message contains
non-fast-forward and none of the earlier authentication or network
keywords classifies as the fixed PUSH_REJECTED response. -/
theorem parseGitError_nonFastForward (message : JStr)
    (h1 : jsIncludes (jsToLower message) "authentication".data = false)
    (h2 : jsIncludes (jsToLower message) "permission denied".data = false)
    (h3 : jsIncludes (jsToLower message) "could not read".data = false)
    (h4 : jsIncludes (jsToLower message) "invalid credentials".data = false)
    (h5 : jsIncludes (jsToLower message) "could not resolve host".data = false)
    (h6 : jsIncludes (jsToLower message) "network".data = false)
    (h7 : jsIncludes (jsToLower message) "connection refused".data = false)
    (h8 : jsIncludes (jsToLower message) "unable to access".data = false)
    (h9 : jsIncludes (jsToLower message) "non-fast-forward".data = true) :
    parseGitError message = pushRejectedInfo := by
  simp [parseGitError, h1, h2, h3, h4, h5, h6, h7, h8, h9]

/-- C6 witness: the classification theorem applied to a realistic
rejected-push stderr line. -/
theorem parseGitError_nonFastForward_witness :
    jsIncludes (jsToLower "! [rejected] main -> main (non-fast-forward)".data)
      "non-fast-forward".data = true ∧
    parseGitError "! [rejected] main -> main (non-fast-forward)".data = pushRejectedInfo :=
  ⟨by decide, parseGitError_nonFastForward "! [rejected] main -> main (non-fast-forward)".data
    (by decide) (by decide) (by decide) (by decide) (by decide)
    (by decide) (by decide) (by decide) (by decide)⟩

/-- C8: in the output of sortPathsByDepth no element is followed by one of
its proper ancestors, because a proper ancestor has strictly fewer
segments and the list is sorted by ascending depth. -/
theorem sortPathsByDepth_no_ancestor_after (paths : List JStr) (i j : Nat)
    (hij : i < j) (hj : j < (sortPathsByDepth paths).length) :
    isProperAncestorOf ((sortPathsByDepth paths).getD j [])
      ((sortPathsByDepth paths).getD i []) = false := by
  simp only [sortPathsByDepth] at hj ⊢
  have hi : i < (paths.mergeSort
      (fun a b => decide (pathDepth a ≤ pathDepth b))).length := Nat.lt_trans hij hj
  have hpw : (paths.mergeSort (fun a b => decide (pathDepth a ≤ pathDepth b))).Pairwise
      (fun a b => decide (pathDepth a ≤ pathDepth b) = true) :=
    List.sorted_mergeSort
      (by
        intro a b c hab hbc
        simp only [decide_eq_true_eq] at hab hbc ⊢
        exact Nat.le_trans hab hbc)
      (by
        intro a b
        simp only [Bool.or_eq_true, decide_eq_true_eq]
        exact Nat.le_total _ _)
      paths
  have hle := (List.pairwise_iff_getElem.mp hpw) i j hi hj hij
  simp only [decide_eq_true_eq] at hle
  rw [List.getD_eq_getElem _ _ hj, List.getD_eq_getElem _ _ hi]
  by_contra hcontra
  rw [Bool.not_eq_false] at hcontra
  unfold isProperAncestorOf at hcontra
  rw [Bool.and_eq_true, Bool.not_eq_true', decide_eq_false_iff_not] at hcontra
  obtain ⟨hne, hpre⟩ := hcontra
  have hlen := isPrefixOf_length_le _ _ hpre
  have hlt := Nat.lt_of_le_of_ne hlen
    (fun heq => hne (isPrefixOf_and_length_eq _ _ hpre heq))
  rw [pathDepth_eq_segs, pathDepth_eq_segs] at hle
  omega

/-- C8 witness: the no-ancestor-after theorem applied to the pair of
indices 0 and 1 of the sorted form of the list holding /a/b and /a. -/
theorem sortPathsByDepth_no_ancestor_after_witness :
    (0 < 1 ∧ 1 < (sortPathsByDepth ["/a/b".data, "/a".data]).length) ∧
    isProperAncestorOf ((sortPathsByDepth ["/a/b".data, "/a".data]).getD 1 [])
      ((sortPathsByDepth ["/a/b".data, "/a".data]).getD 0 []) = false :=
  have hlen : (sortPathsByDepth ["/a/b".data, "/a".data]).length = 2 := by
    simp [sortPathsByDepth, List.length_mergeSort]
  ⟨⟨Nat.one_pos, by rw [hlen]; exact Nat.one_lt_two⟩,
    sortPathsByDepth_no_ancestor_after ["/a/b".data, "/a".data] 0 1 Nat.one_pos
      (by rw [hlen]; exact Nat.one_lt_two)⟩

/-- C10 counterexample: an empty message is falsy in JS, so it is rejected
as MESSAGE_REQUIRED although its trimmed length is below three, where the
claim demands MESSAGE_TOO_SHORT. -/
theorem handleGitCommit_empty_counterexample :
    handleGitCommit (some []) none [] = ⟨.error messageRequiredCode, []⟩ ∧
    utf16Length (jsTrim []) < 3 ∧
    messageRequiredCode ≠ messageTooShortCode := by
  decide

/-- C10 amended: for every nonempty message, a trimmed UTF-16 length below
three rejects with MESSAGE_TOO_SHORT and a trimmed UTF-16 length above
five hundred rejects with MESSAGE_TOO_LONG, in both cases with no staging
or commit action; a trimmed length within bounds commits and echoes
exactly the trimmed message. -/
theorem handleGitCommit_validation (m : JStr) (paths : Option (List JStr)) (sha : JStr)
    (hm : m ≠ []) :
    (utf16Length (jsTrim m) < 3 →
      handleGitCommit (some m) paths sha = ⟨.error messageTooShortCode, []⟩) ∧
    (utf16Length (jsTrim m) > 500 →
      handleGitCommit (some m) paths sha = ⟨.error messageTooLongCode, []⟩) ∧
    (3 ≤ utf16Length (jsTrim m) → utf16Length (jsTrim m) ≤ 500 →
      (handleGitCommit (some m) paths sha).response = .ok (sha, jsTrim m) ∧
      GitAction.commit (jsTrim m) ∈ (handleGitCommit (some m) paths sha).actions) := by
  have hne : m.isEmpty = false := by
    cases m with
    | nil => exact absurd rfl hm
    | cons a as => rfl
  refine ⟨?_, ?_, ?_⟩
  · intro h
    simp [handleGitCommit, hne, h]
  · intro h
    have h3 : ¬ utf16Length (jsTrim m) < 3 := by omega
    simp [handleGitCommit, hne, h3, h]
  · intro hlo hhi
    have h3 : ¬ utf16Length (jsTrim m) < 3 := by omega
    have h5 : ¬ utf16Length (jsTrim m) > 500 := by omega
    rcases paths with _ | ps
    · constructor
      · simp [handleGitCommit, hne, h3, h5]
      · simp [handleGitCommit, hne, h3, h5]
    · by_cases hp : ps.length > 0
      · constructor
        · simp [handleGitCommit, hne, h3, h5, hp]
        · simp [handleGitCommit, hne, h3, h5, hp]
      · constructor
        · simp [handleGitCommit, hne, h3, h5, hp]
        · simp [handleGitCommit, hne, h3, h5, hp]

/-- C10 witness: the validation theorem applied to the two-character
message hi, which is rejected as too short with no git action. -/
theorem handleGitCommit_validation_witness :
    "hi".data ≠ [] ∧
    handleGitCommit (some "hi".data) none [] = ⟨.error messageTooShortCode, []⟩ :=
  ⟨by decide, (handleGitCommit_validation "hi".data none [] (by decide)).1 (by decide)⟩
